import Mathlib

/-!
Verification of the super-tiny-compiler pipeline (src/super-tiny-compiler.ts).

The TypeScript source is embedded shallowly:

* the tokenizer, whose `while` loops can run past the end of the input
  (JavaScript `input[i]` yields `undefined` there), is modelled as a
  fuel-indexed function on the list of remaining characters; `none` means
  the run did not finish within the given fuel, so a state on which every
  fuel bound yields `none` is a diverging run;
* the recursive-descent parser is modelled the same way, with an explicit
  error for the JavaScript crash that reading a property of `undefined`
  (indexing past the end of the token array) produces;
* the transformer is modelled twice: as the pure tree map it computes, and
  as a state-passing function that also returns the source tree with the
  `_context` slot writes applied, mirroring the mutation in the source;
* the code generator is a structural recursion, one equation per class
  method of the source.
-/

namespace STC

/-! ## Character classes (the regexes of the tokenizer) -/

/-- Test of the regex WHITESPACE = /\s/ on a present character. -/
def isWhitespaceChar (c : Char) : Bool :=
  c = ' ' || c = '\t' || c = '\n' || c = '\r' || c = Char.ofNat 11 || c = Char.ofNat 12 ||
  c = Char.ofNat 0xA0 || c = Char.ofNat 0x1680 ||
  (0x2000 ≤ c.toNat && c.toNat ≤ 0x200A) ||
  c = Char.ofNat 0x2028 || c = Char.ofNat 0x2029 || c = Char.ofNat 0x202F ||
  c = Char.ofNat 0x205F || c = Char.ofNat 0x3000 || c = Char.ofNat 0xFEFF

/-- Test of the regex NUMBERS = /[0-9]/ on a present character. -/
def isDigitChar (c : Char) : Bool := c.isDigit

/-- Test of the regex LETTERS = /[a-z]/i on a present character. -/
def isLetterChar (c : Char) : Bool := c.isAlpha

/-- A character the tokenizer recognizes; anything else hits the final
throw ("I dont know what this char is"). -/
def recognizedChar (c : Char) : Bool :=
  c = '(' || c = ')' || isWhitespaceChar c || isDigitChar c || c = '"' || isLetterChar c

/-! ## Tokens -/

inductive TokenType where
  | paren
  | number
  | string
  | name
deriving DecidableEq

structure Token where
  type : TokenType
  value : String
deriving DecidableEq

/-- The characters of String(undefined), appended to the accumulator when a
JavaScript loop body runs with the cursor past the end of the input. -/
def undefinedChars : List Char := ['u', 'n', 'd', 'e', 'f', 'i', 'n', 'e', 'd']

/-! ## The tokenizer's inner loops

Each models one `while` loop of `tokenizer`, char by char, with the list of
characters from the cursor onward. Past the end of the input, `input[i]` is
`undefined`; the JavaScript regex tests then receive the string "undefined",
so the digit test is false (no digit in it) while the letter test is TRUE
(it contains letters), and `undefined !== '"'` also holds, which is why the
letter and string loops never exit there. -/

/-- Loop `while (re.NUMBERS.test(char)) { value += char; char = input[++current]; }`.
Past the end of the input the test is false, so the loop exits. -/
def digitRunFuel : Nat → List Char → List Char → Option (List Char × List Char)
  | 0, _, _ => none
  | _ + 1, [], v => some (v, [])
  | n + 1, c :: rest, v =>
    if isDigitChar c then digitRunFuel n rest (v ++ [c]) else some (v, c :: rest)

/-- Loop `while (char !== '"') { value += char; char = input[++current]; }`.
Past the end of the input `char` is `undefined`, which is not the quote, so
the loop body keeps running (appending "undefined") and never exits.
On exit the cursor is left AT the closing quote: the source never
increments past it, despite its comment "Skip the closing double quote". -/
def stringScanFuel : Nat → List Char → List Char → Option (List Char × List Char)
  | 0, _, _ => none
  | n + 1, [], v => stringScanFuel n [] (v ++ undefinedChars)
  | n + 1, c :: rest, v =>
    if c = '"' then some (v, c :: rest) else stringScanFuel n rest (v ++ [c])

/-- Loop `while (re.LETTERS.test(char)) { value += char; char = input[++current]; }`.
Past the end of the input the test receives "undefined", which contains
letters, so it is true and the loop never exits. -/
def letterRunFuel : Nat → List Char → List Char → Option (List Char × List Char)
  | 0, _, _ => none
  | n + 1, [], v => letterRunFuel n [] (v ++ undefinedChars)
  | n + 1, c :: rest, v =>
    if isLetterChar c then letterRunFuel n rest (v ++ [c]) else some (v, c :: rest)

/-! ## The tokenizer -/

/-- Fuel-indexed model of `tokenizer` (src/super-tiny-compiler.ts, lines
30-88). The remaining input plays the role of the cursor; one unit of fuel
is spent per outer loop entry, and the inner loops spend their own.
`some (.ok ts)` is a normal return, `some (.error c)` is the
`throw new TypeError("I dont know what this char is: " + char)`, and `none`
means the run did not finish within the fuel. -/
def tokenizerFuel : Nat → List Char → List Token → Option (Except Char (List Token))
  | 0, _, _ => none
  | _ + 1, [], acc => some (.ok acc)
  | n + 1, c :: rest, acc =>
    if c = '(' ∨ c = ')' then
      tokenizerFuel n rest (acc ++ [⟨.paren, String.mk [c]⟩])
    else if isWhitespaceChar c then
      tokenizerFuel n rest acc
    else if isDigitChar c then
      match digitRunFuel n (c :: rest) [] with
      | none => none
      | some (v, rem) => tokenizerFuel n rem (acc ++ [⟨.number, String.mk v⟩])
    else if c = '"' then
      match stringScanFuel n rest [] with
      | none => none
      | some (v, rem) => tokenizerFuel n rem (acc ++ [⟨.string, String.mk v⟩])
    else if isLetterChar c then
      match letterRunFuel n (c :: rest) [] with
      | none => none
      | some (v, rem) => tokenizerFuel n rem (acc ++ [⟨.name, String.mk v⟩])
    else some (.error c)

/-! ## Source AST (what the parser builds) -/

inductive SrcExpr where
  | num (value : String)
  | str (value : String)
  | call (name : String) (params : List SrcExpr)

/-- Mirrors ProgramNode: the root node with its body. -/
structure SrcProgram where
  body : List SrcExpr

/-! ## The parser

The recursive function `walk` of `parser` (lines 185-288) reads
`tokens[current]` and then accesses `.type` or `.value` on it. When
`current` is past the end of the array the read yields `undefined` and the
property access crashes with a JavaScript TypeError; `ParseFailure.oob`
models that crash. `ParseFailure.unexpected t` models the deliberate
`throw new TypeError(token.type.toString())` at the end of `walk`. -/

inductive ParseFailure where
  | unexpected (t : Token)
  | oob
deriving DecidableEq

mutual

/-- Fuel-indexed model of `walk`. On success it returns the parsed node and
the new cursor. One unit of fuel per `walk` entry. -/
def walkFuel : Nat → List Token → Nat → Option (Except ParseFailure (SrcExpr × Nat))
  | 0, _, _ => none
  | n + 1, tokens, cur =>
    match tokens.get? cur with
    | none => some (.error .oob)
    | some t =>
      if t.type = TokenType.number then some (.ok (.num t.value, cur + 1))
      else if t.type = TokenType.string then some (.ok (.str t.value, cur + 1))
      else if t.type = TokenType.paren ∧ t.value = "(" then
        match tokens.get? (cur + 1) with
        | none => some (.error .oob)
        | some nameTok =>
          match argsFuel n tokens (cur + 2) with
          | none => none
          | some (.error e) => some (.error e)
          | some (.ok (params, c2)) => some (.ok (.call nameTok.value params, c2))
      else some (.error (.unexpected t))

/-- Fuel-indexed model of the argument loop inside `walk`: repeat `walk`
until the current token is the closing parenthesis; the loop condition
reads `token.type`, so an exhausted token array is the `oob` crash. -/
def argsFuel : Nat → List Token → Nat → Option (Except ParseFailure (List SrcExpr × Nat))
  | 0, _, _ => none
  | n + 1, tokens, cur =>
    match tokens.get? cur with
    | none => some (.error .oob)
    | some t =>
      if t.type = TokenType.paren ∧ t.value = ")" then some (.ok ([], cur + 1))
      else
        match walkFuel n tokens cur with
        | none => none
        | some (.error e) => some (.error e)
        | some (.ok (e, c2)) =>
          match argsFuel n tokens c2 with
          | none => none
          | some (.error e2) => some (.error e2)
          | some (.ok (es, c3)) => some (.ok (e :: es, c3))

end

/-- Fuel-indexed model of the top-level loop of `parser`:
`while (current < tokens.length) ast.body.push(walk())`. -/
def parseLoopFuel : Nat → List Token → Nat → Option (Except ParseFailure (List SrcExpr))
  | 0, _, _ => none
  | n + 1, tokens, cur =>
    if cur < tokens.length then
      match walkFuel n tokens cur with
      | none => none
      | some (.error e) => some (.error e)
      | some (.ok (e, c2)) =>
        match parseLoopFuel n tokens c2 with
        | none => none
        | some (.error e2) => some (.error e2)
        | some (.ok es) => some (.ok (e :: es))
    else some (.ok [])

/-- Fuel-indexed model of `parser`: run the top-level loop from cursor 0 and
wrap the collected expressions in the Program node. -/
def parserFuel (n : Nat) (tokens : List Token) : Option (Except ParseFailure SrcProgram) :=
  match parseLoopFuel n tokens 0 with
  | none => none
  | some (.error e) => some (.error e)
  | some (.ok es) => some (.ok ⟨es⟩)

/-! ## Target AST (what the transformer builds)

One constructor per node class of the source: NumberLiteral, StringLiteral,
Identifier, JsCallExpression (whose callee is an Identifier, kept here as
its name), JsExpressionStatement, and ProgramNode. -/

inductive JsNode where
  | numberLiteral (value : String)
  | stringLiteral (value : String)
  | identifier (name : String)
  | callExpression (callee : String) (args : List JsNode)
  | expressionStatement (expression : JsNode)
  | program (body : List JsNode)

/-! ## Code generator -/

mutual

/-- Model of the generateJsCode methods, one equation per class:
NumberLiteral returns this.value; StringLiteral returns the value in double
quotes; Identifier returns this.name; JsCallExpression returns the callee's
rendering, "(", the arguments' renderings joined with ", ", and ")";
JsExpressionStatement returns the expression's rendering plus ";";
ProgramNode returns the body's renderings joined with a newline
(Array.prototype.join is String.intercalate). -/
def generateJsCode : JsNode → String
  | .numberLiteral value => value
  | .stringLiteral value => "\"" ++ value ++ "\""
  | .identifier name => name
  | .callExpression callee args =>
      callee ++ "(" ++ String.intercalate ", " (generateJsCodeList args) ++ ")"
  | .expressionStatement expression => generateJsCode expression ++ ";"
  | .program body => String.intercalate "\n" (generateJsCodeList body)
termination_by structural n => n

/-- The elementwise renderings of a list of nodes, in order: the
`this.args.map(it => it.generateJsCode())` of the source. -/
def generateJsCodeList : List JsNode → List String
  | [] => []
  | x :: xs => generateJsCode x :: generateJsCodeList xs
termination_by structural l => l

end

/-! ## Transformer, pure form

The visitor of `transformer` (lines 432-494) appends, for each visited
source node, one new node to its parent's output slot: literals are copied;
a CallExpression becomes a JsCallExpression with an Identifier callee,
wrapped in a JsExpressionStatement exactly when the parent is not itself a
CallExpression (i.e. it is the Program). Since the traversal visits
children left to right after their parent, the net effect is the following
structural recursion; parentIsCall records whether the parent node is a
CallExpression. -/

mutual

def transformExpr (parentIsCall : Bool) : SrcExpr → JsNode
  | .num value => .numberLiteral value
  | .str value => .stringLiteral value
  | .call name params =>
      let e := JsNode.callExpression name (transformParams params)
      if parentIsCall then e else .expressionStatement e
termination_by structural e => e

/-- The transforms of the parameters of a CallExpression, in traversal
order; their parent is that CallExpression. -/
def transformParams : List SrcExpr → List JsNode
  | [] => []
  | x :: xs => transformExpr true x :: transformParams xs
termination_by structural l => l

end

/-- Model of `transformer`: the new Program whose body receives the
transform of each top-level node (their parent is the Program). -/
def transformer (p : SrcProgram) : JsNode :=
  .program (p.body.map (transformExpr false))

/-! ## Pipeline -/

inductive CompileError where
  | lex (c : Char)
  | parse (e : ParseFailure)
deriving DecidableEq

/-- Fuel-indexed model of `compiler` (lines 515-523): tokenizer, parser,
transformer, codeGenerator in sequence, propagating the first failure.
`none` again means the run did not finish within the fuel. -/
def compilerFuel (n : Nat) (input : String) : Option (Except CompileError String) :=
  match tokenizerFuel n input.data [] with
  | none => none
  | some (.error c) => some (.error (.lex c))
  | some (.ok tokens) =>
    match parserFuel n tokens with
    | none => none
    | some (.error e) => some (.error (.parse e))
    | some (.ok ast) => some (.ok (generateJsCode (transformer ast)))

/-! ## Transformer, state-passing form

Every ASTNode of the source carries a mutable field `_context`. The
transformer writes it on the Program node (`ast._context = newAst.body`,
before the traversal) and on each CallExpression node
(`node._context = expression.args`, in its enter callback); literal nodes
are never written. The reference stored is an array of the NEW tree; here
it is named by an allocation number: 0 is `newAst.body`, and each
JsCallExpression's `args` array gets the next number in visit (pre-)order.
Nothing ever clears the field: after `transformer` returns, the writes are
still attached to the source nodes. -/

inductive CtxNode where
  | num (value : String) (ctx : Option Nat)
  | str (value : String) (ctx : Option Nat)
  | call (name : String) (params : List CtxNode) (ctx : Option Nat)

structure CtxProgram where
  body : List CtxNode
  ctx : Option Nat

mutual

/-- Forget the `_context` field of every node. -/
def stripNode : CtxNode → SrcExpr
  | .num v _ => .num v
  | .str v _ => .str v
  | .call name params _ => .call name (stripList params)
termination_by structural n => n

def stripList : List CtxNode → List SrcExpr
  | [] => []
  | x :: xs => stripNode x :: stripList xs
termination_by structural l => l

end

/-- Forget the `_context` fields of a whole source tree. -/
def stripProgram (p : CtxProgram) : SrcProgram :=
  ⟨stripList p.body⟩

mutual

/-- Attach an unset `_context` field to every node, as the parser created
them (the field of a fresh ASTNode is undefined). -/
def withNoCtx : SrcExpr → CtxNode
  | .num v => .num v none
  | .str v => .str v none
  | .call name params => .call name (withNoCtxList params) none
termination_by structural e => e

def withNoCtxList : List SrcExpr → List CtxNode
  | [] => []
  | x :: xs => withNoCtx x :: withNoCtxList xs
termination_by structural l => l

end

mutual

/-- The enter callback of the visitor on one node, tracking its effect on
the node itself: a CallExpression gets `_context` set to the args array of
the JsCallExpression it allocates (allocation number `fresh`), then its
children run; a literal is left untouched. Returns the produced JsNode, the
node after the traversal (with the `_context` writes applied), and the next
free allocation number. -/
def visitNode (parentIsCall : Bool) (fresh : Nat) :
    CtxNode → JsNode × CtxNode × Nat
  | .num v c => (.numberLiteral v, .num v c, fresh)
  | .str v c => (.stringLiteral v, .str v c, fresh)
  | .call name params _ =>
      let r := visitList true (fresh + 1) params
      let e := JsNode.callExpression name r.1
      ((if parentIsCall then e else .expressionStatement e),
        .call name r.2.1 (some fresh), r.2.2)
termination_by structural n => n

def visitList (parentIsCall : Bool) (fresh : Nat) :
    List CtxNode → List JsNode × List CtxNode × Nat
  | [] => ([], [], fresh)
  | x :: xs =>
      let r := visitNode parentIsCall fresh x
      let rs := visitList parentIsCall r.2.2 xs
      (r.1 :: rs.1, r.2.1 :: rs.2.1, rs.2.2)
termination_by structural l => l

end

/-- State-passing model of `transformer`: sets the Program's `_context` to
the new body (allocation number 0) before the traversal, then visits the
body (whose parent, the Program, is not a CallExpression). Returns the new
AST together with the source tree as `transformer` leaves it. -/
def transformerS (p : CtxProgram) : JsNode × CtxProgram :=
  let r := visitList false 1 p.body
  (.program r.1, ⟨r.2.1, some 0⟩)

/-! ## Statement-freeness of target subtrees -/

mutual

/-- True when a target node contains no JsExpressionStatement anywhere:
such a node renders without any statement terminator being added. -/
def stmtFree : JsNode → Bool
  | .numberLiteral _ => true
  | .stringLiteral _ => true
  | .identifier _ => true
  | .callExpression _ args => stmtFreeList args
  | .expressionStatement _ => false
  | .program body => stmtFreeList body
termination_by structural n => n

def stmtFreeList : List JsNode → Bool
  | [] => true
  | x :: xs => stmtFree x && stmtFreeList xs
termination_by structural l => l

end

/-- How one top-level source expression relates to its transformed node: a
literal is copied as a bare leaf (no statement wrapper), and a call becomes
exactly one JsExpressionStatement around the call, with no further
statement wrapper anywhere inside the call's arguments. -/
def topRel : SrcExpr → JsNode → Prop
  | .num v, t => t = .numberLiteral v
  | .str v, t => t = .stringLiteral v
  | .call name _, t =>
      ∃ args, t = .expressionStatement (.callExpression name args) ∧ stmtFreeList args = true

/-! ## The code generator as the specification words it

A second rendering function, written from the specification text instead of
the source methods: one rule per node kind, with the joining of renderings
spelled out by explicit recursion rather than Array.prototype.join. It is
proved extensionally equal to generateJsCode. -/

/-- Join a list of strings with a separator between consecutive elements:
empty gives the empty string, a single element gives itself. -/
def joinWith (sep : String) : List String → String
  | [] => ""
  | [x] => x
  | x :: y :: xs => x ++ sep ++ joinWith sep (y :: xs)

mutual

/-- The specification's rendering rules: NumberLiteral gives the literal
text unquoted; StringLiteral the literal text wrapped in double quotes with
no escaping; Identifier its name verbatim; Call the callee's rendering,
then "(", the arguments' renderings joined with ", ", then ")";
ExpressionStatement the inner expression's rendering followed by ";";
Program the body elements' renderings joined by a newline, in order. -/
def specRender : JsNode → String
  | .numberLiteral value => value
  | .stringLiteral value => "\"" ++ value ++ "\""
  | .identifier name => name
  | .callExpression callee args => callee ++ "(" ++ joinWith ", " (specRenderList args) ++ ")"
  | .expressionStatement expression => specRender expression ++ ";"
  | .program body => joinWith "\n" (specRenderList body)
termination_by structural n => n

def specRenderList : List JsNode → List String
  | [] => []
  | x :: xs => specRender x :: specRenderList xs
termination_by structural l => l

end

/-! ## Generic list facts used below -/

theorem mem_dropWhile_of_mem {α : Type} {p : α → Bool} {a : α} :
    ∀ {l : List α}, a ∈ l → p a = false → a ∈ l.dropWhile p := by
  intro l
  induction l with
  | nil => intro h; cases h
  | cons c rest ih =>
    intro hmem hpa
    by_cases hpc : p c = true
    · rw [List.dropWhile_cons_of_pos hpc]
      rcases List.mem_cons.mp hmem with rfl | hr
      · rw [hpa] at hpc; cases hpc
      · exact ih hr hpa
    · rw [List.dropWhile_cons_of_neg hpc]
      exact hmem

theorem mem_of_mem_dropWhile {α : Type} {p : α → Bool} {a : α} {l : List α}
    (h : a ∈ l.dropWhile p) : a ∈ l :=
  (List.dropWhile_suffix p).sublist.mem h

theorem getLast?_of_dropWhile_getLast? {α : Type} {p : α → Bool} {l : List α} {x : α}
    (h : (l.dropWhile p).getLast? = some x) : l.getLast? = some x := by
  obtain ⟨s, hs⟩ := List.dropWhile_suffix (l := l) p
  rw [← hs]
  exact List.mem_getLast?_append_of_mem_getLast? h

/-! ## Fuel monotonicity of the tokenizer loops -/

theorem digitRunFuel_mono : ∀ {n : Nat} {cs v r},
    digitRunFuel n cs v = some r → digitRunFuel (n + 1) cs v = some r := by
  intro n
  induction n with
  | zero => intro cs v r h; cases h
  | succ n ih =>
    intro cs v r h
    cases cs with
    | nil => exact h
    | cons c rest =>
      by_cases hc : isDigitChar c = true
      · rw [digitRunFuel, if_pos hc] at h ⊢
        exact ih h
      · rw [digitRunFuel, if_neg hc] at h ⊢
        exact h

theorem stringScanFuel_mono : ∀ {n : Nat} {cs v r},
    stringScanFuel n cs v = some r → stringScanFuel (n + 1) cs v = some r := by
  intro n
  induction n with
  | zero => intro cs v r h; cases h
  | succ n ih =>
    intro cs v r h
    cases cs with
    | nil => rw [stringScanFuel] at h ⊢; exact ih h
    | cons c rest =>
      by_cases hc : c = '"'
      · rw [stringScanFuel, if_pos hc] at h ⊢
        exact h
      · rw [stringScanFuel, if_neg hc] at h ⊢
        exact ih h

theorem letterRunFuel_mono : ∀ {n : Nat} {cs v r},
    letterRunFuel n cs v = some r → letterRunFuel (n + 1) cs v = some r := by
  intro n
  induction n with
  | zero => intro cs v r h; cases h
  | succ n ih =>
    intro cs v r h
    cases cs with
    | nil => rw [letterRunFuel] at h ⊢; exact ih h
    | cons c rest =>
      by_cases hc : isLetterChar c = true
      · rw [letterRunFuel, if_pos hc] at h ⊢
        exact ih h
      · rw [letterRunFuel, if_neg hc] at h ⊢
        exact h

theorem digitRunFuel_mono_le {n m : Nat} {cs v r} (hnm : n ≤ m)
    (h : digitRunFuel n cs v = some r) : digitRunFuel m cs v = some r := by
  induction hnm with
  | refl => exact h
  | step _ ih => exact digitRunFuel_mono ih

theorem stringScanFuel_mono_le {n m : Nat} {cs v r} (hnm : n ≤ m)
    (h : stringScanFuel n cs v = some r) : stringScanFuel m cs v = some r := by
  induction hnm with
  | refl => exact h
  | step _ ih => exact stringScanFuel_mono ih

theorem letterRunFuel_mono_le {n m : Nat} {cs v r} (hnm : n ≤ m)
    (h : letterRunFuel n cs v = some r) : letterRunFuel m cs v = some r := by
  induction hnm with
  | refl => exact h
  | step _ ih => exact letterRunFuel_mono ih

/-! ## Closed forms of the terminating loop runs -/

theorem digitRunFuel_closed : ∀ (cs v : List Char),
    digitRunFuel (cs.length + 1) cs v =
      some (v ++ cs.takeWhile isDigitChar, cs.dropWhile isDigitChar) := by
  intro cs
  induction cs with
  | nil => intro v; simp [digitRunFuel]
  | cons c rest ih =>
    intro v
    by_cases hc : isDigitChar c = true
    · rw [List.length_cons, digitRunFuel, if_pos hc, ih,
        List.takeWhile_cons_of_pos hc, List.dropWhile_cons_of_pos hc]
      simp
    · rw [List.length_cons, digitRunFuel, if_neg hc,
        List.takeWhile_cons_of_neg hc, List.dropWhile_cons_of_neg hc]
      simp

theorem letterRunFuel_closed : ∀ (cs : List Char), (∃ x ∈ cs, isLetterChar x = false) →
    ∀ v, letterRunFuel (cs.length + 1) cs v =
      some (v ++ cs.takeWhile isLetterChar, cs.dropWhile isLetterChar) := by
  intro cs
  induction cs with
  | nil => rintro ⟨x, hx, -⟩; cases hx
  | cons c rest ih =>
    rintro ⟨x, hx, hxl⟩ v
    by_cases hc : isLetterChar c = true
    · have hxr : x ∈ rest := by
        rcases List.mem_cons.mp hx with rfl | hr
        · rw [hxl] at hc; cases hc
        · exact hr
      rw [List.length_cons, letterRunFuel, if_pos hc, ih ⟨x, hxr, hxl⟩,
        List.takeWhile_cons_of_pos hc, List.dropWhile_cons_of_pos hc]
      simp
    · rw [List.length_cons, letterRunFuel, if_neg hc,
        List.takeWhile_cons_of_neg hc, List.dropWhile_cons_of_neg hc]
      simp

theorem stringScanFuel_closed : ∀ (cs : List Char), '"' ∈ cs →
    ∀ v, stringScanFuel (cs.length + 1) cs v =
      some (v ++ cs.takeWhile (fun c => !(c == '"')), cs.dropWhile (fun c => !(c == '"'))) := by
  intro cs
  induction cs with
  | nil => intro hx; cases hx
  | cons c rest ih =>
    intro hmem v
    by_cases hc : c = '"'
    · subst hc
      rw [List.length_cons, stringScanFuel, if_pos rfl]
      have hq : (fun c => !(c == '"')) '"' = false := by simp
      rw [List.takeWhile_cons_of_neg (by simp), List.dropWhile_cons_of_neg (by simp)]
      simp
    · have hqr : '"' ∈ rest := by
        rcases List.mem_cons.mp hmem with heq | hr
        · exact absurd heq.symm hc
        · exact hr
      rw [List.length_cons, stringScanFuel, if_neg hc, ih hqr,
        List.takeWhile_cons_of_pos (by simp [hc]), List.dropWhile_cons_of_pos (by simp [hc])]
      simp

/-! ## Determinacy of the loop runs: any successful run yields the closed form -/

theorem digitRunFuel_det {n : Nat} {cs v r} (h : digitRunFuel n cs v = some r) :
    r = (v ++ cs.takeWhile isDigitChar, cs.dropWhile isDigitChar) := by
  rcases Nat.le_total n (cs.length + 1) with hle | hle
  · have := digitRunFuel_mono_le hle h
    rw [digitRunFuel_closed] at this
    exact (Option.some_inj.mp this).symm
  · have := digitRunFuel_mono_le hle (digitRunFuel_closed cs v)
    rw [h] at this
    exact Option.some_inj.mp this

theorem letterRunFuel_det {n : Nat} {cs v r} (hex : ∃ x ∈ cs, isLetterChar x = false)
    (h : letterRunFuel n cs v = some r) :
    r = (v ++ cs.takeWhile isLetterChar, cs.dropWhile isLetterChar) := by
  rcases Nat.le_total n (cs.length + 1) with hle | hle
  · have := letterRunFuel_mono_le hle h
    rw [letterRunFuel_closed cs hex] at this
    exact (Option.some_inj.mp this).symm
  · have := letterRunFuel_mono_le hle (letterRunFuel_closed cs hex v)
    rw [h] at this
    exact Option.some_inj.mp this

theorem stringScanFuel_det {n : Nat} {cs v r} (hq : '"' ∈ cs)
    (h : stringScanFuel n cs v = some r) :
    r = (v ++ cs.takeWhile (fun c => !(c == '"')), cs.dropWhile (fun c => !(c == '"'))) := by
  rcases Nat.le_total n (cs.length + 1) with hle | hle
  · have := stringScanFuel_mono_le hle h
    rw [stringScanFuel_closed cs hq] at this
    exact (Option.some_inj.mp this).symm
  · have := stringScanFuel_mono_le hle (stringScanFuel_closed cs hq v)
    rw [h] at this
    exact Option.some_inj.mp this

/-! ## Divergence of the loop runs -/

theorem stringScanFuel_none : ∀ (n : Nat) (cs v : List Char), '"' ∉ cs →
    stringScanFuel n cs v = none := by
  intro n
  induction n with
  | zero => intros; rfl
  | succ n ih =>
    intro cs v h
    cases cs with
    | nil => rw [stringScanFuel]; exact ih [] _ h
    | cons c rest =>
      have hc : ¬ (c = '"') := fun hh => h (hh ▸ List.mem_cons_self c rest)
      rw [stringScanFuel, if_neg hc]
      exact ih rest _ (fun hm => h (List.mem_cons_of_mem _ hm))

theorem letterRunFuel_none : ∀ (n : Nat) (cs v : List Char),
    (∀ c ∈ cs, isLetterChar c = true) → letterRunFuel n cs v = none := by
  intro n
  induction n with
  | zero => intros; rfl
  | succ n ih =>
    intro cs v h
    cases cs with
    | nil => rw [letterRunFuel]; exact ih [] _ h
    | cons c rest =>
      have hc : isLetterChar c = true := h c (List.mem_cons_self c rest)
      rw [letterRunFuel, if_pos hc]
      exact ih rest _ (fun x hx => h x (List.mem_cons_of_mem _ hx))

/-! ## Fuel monotonicity of the tokenizer -/

theorem tokenizerFuel_mono : ∀ {n : Nat} {cs acc r},
    tokenizerFuel n cs acc = some r → tokenizerFuel (n + 1) cs acc = some r := by
  intro n
  induction n with
  | zero => intro cs acc r h; cases h
  | succ n ih =>
    intro cs acc r h
    cases cs with
    | nil => exact h
    | cons c rest =>
      by_cases hp : c = '(' ∨ c = ')'
      · rw [tokenizerFuel, if_pos hp] at h ⊢
        exact ih h
      · by_cases hw : isWhitespaceChar c = true
        · rw [tokenizerFuel, if_neg hp, if_pos hw] at h ⊢
          exact ih h
        · by_cases hd : isDigitChar c = true
          · rw [tokenizerFuel, if_neg hp, if_neg hw, if_pos hd] at h ⊢
            cases hdr : digitRunFuel n (c :: rest) [] with
            | none => rw [hdr] at h; cases h
            | some vr =>
              rw [hdr] at h
              rw [digitRunFuel_mono hdr]
              exact ih h
          · by_cases hq : c = '"'
            · rw [tokenizerFuel, if_neg hp, if_neg hw, if_neg hd, if_pos hq] at h ⊢
              cases hsr : stringScanFuel n rest [] with
              | none => rw [hsr] at h; cases h
              | some vr =>
                rw [hsr] at h
                rw [stringScanFuel_mono hsr]
                exact ih h
            · by_cases hl : isLetterChar c = true
              · rw [tokenizerFuel, if_neg hp, if_neg hw, if_neg hd, if_neg hq, if_pos hl] at h ⊢
                cases hlr : letterRunFuel n (c :: rest) [] with
                | none => rw [hlr] at h; cases h
                | some vr =>
                  rw [hlr] at h
                  rw [letterRunFuel_mono hlr]
                  exact ih h
              · rw [tokenizerFuel, if_neg hp, if_neg hw, if_neg hd, if_neg hq, if_neg hl] at h ⊢
                exact h

theorem tokenizerFuel_mono_le {n m : Nat} {cs acc r} (hnm : n ≤ m)
    (h : tokenizerFuel n cs acc = some r) : tokenizerFuel m cs acc = some r := by
  induction hnm with
  | refl => exact h
  | step _ ih => exact tokenizerFuel_mono ih

/-! ## Any input containing a double quote dooms the tokenizer

Each string scan stops AT its closing quote without consuming it, so the
next outer iteration re-enters the string branch at that same quote; the
last such scan runs off the end of the input and never exits. Hence on an
input that contains a double quote and no unrecognized character (which
would abort with the explicit throw first), the tokenizer never returns,
whatever the fuel. -/

theorem tokenizerFuel_quote_none_aux :
    ∀ (k : Nat) (cs : List Char), cs.length ≤ k → '"' ∈ cs →
      (∀ c ∈ cs, recognizedChar c = true) →
      ∀ (n : Nat) (acc : List Token), tokenizerFuel n cs acc = none := by
  intro k
  induction k with
  | zero =>
    intro cs hlen hq _ n acc
    rw [List.length_eq_zero.mp (Nat.le_zero.mp hlen)] at hq
    cases hq
  | succ k ih =>
    intro cs hlen hq hr n acc
    cases n with
    | zero => rfl
    | succ n =>
      cases cs with
      | nil => cases hq
      | cons c rest =>
        have hqrest : c ≠ '"' → '"' ∈ rest := by
          intro hne
          rcases List.mem_cons.mp hq with heq | hm
          · exact absurd heq.symm hne
          · exact hm
        have hlenr : rest.length ≤ k := Nat.le_of_succ_le_succ hlen
        have hrrest : ∀ x ∈ rest, recognizedChar x = true :=
          fun x hx => hr x (List.mem_cons_of_mem _ hx)
        by_cases hp : c = '(' ∨ c = ')'
        · rw [tokenizerFuel, if_pos hp]
          have hne : c ≠ '"' := by
            rcases hp with rfl | rfl <;> decide
          exact ih rest hlenr (hqrest hne) hrrest n _
        · by_cases hw : isWhitespaceChar c = true
          · rw [tokenizerFuel, if_neg hp, if_pos hw]
            have hne : c ≠ '"' := by
              intro hcq; rw [hcq] at hw; cases hw
            exact ih rest hlenr (hqrest hne) hrrest n _
          · by_cases hd : isDigitChar c = true
            · rw [tokenizerFuel, if_neg hp, if_neg hw, if_pos hd]
              cases hdr : digitRunFuel n (c :: rest) [] with
              | none => rfl
              | some vr =>
                obtain ⟨v, rem⟩ := vr
                have hdet := digitRunFuel_det hdr
                have hrem : rem = (c :: rest).dropWhile isDigitChar :=
                  congrArg Prod.snd hdet
                have hremlen : rem.length ≤ k := by
                  rw [hrem, List.dropWhile_cons_of_pos hd]
                  exact Nat.le_trans ((List.dropWhile_suffix _).sublist.length_le) hlenr
                have hqrem : '"' ∈ rem := by
                  rw [hrem]
                  exact mem_dropWhile_of_mem hq (by decide)
                have hrrem : ∀ x ∈ rem, recognizedChar x = true := by
                  intro x hx
                  rw [hrem] at hx
                  exact hr x (mem_of_mem_dropWhile hx)
                exact ih rem hremlen hqrem hrrem n _
            · by_cases hqc : c = '"'
              · rw [tokenizerFuel, if_neg hp, if_neg hw, if_neg hd, if_pos hqc]
                by_cases hqr : '"' ∈ rest
                · cases hsr : stringScanFuel n rest [] with
                  | none => rfl
                  | some vr =>
                    obtain ⟨v, rem⟩ := vr
                    have hdet := stringScanFuel_det hqr hsr
                    have hrem : rem = rest.dropWhile (fun x => !(x == '"')) :=
                      congrArg Prod.snd hdet
                    have hremlen : rem.length ≤ k := by
                      rw [hrem]
                      exact Nat.le_trans ((List.dropWhile_suffix _).sublist.length_le) hlenr
                    have hqrem : '"' ∈ rem := by
                      rw [hrem]
                      exact mem_dropWhile_of_mem hqr (by simp)
                    have hrrem : ∀ x ∈ rem, recognizedChar x = true := by
                      intro x hx
                      rw [hrem] at hx
                      exact hrrest x (mem_of_mem_dropWhile hx)
                    exact ih rem hremlen hqrem hrrem n _
                · rw [stringScanFuel_none n rest [] hqr]
              · by_cases hl : isLetterChar c = true
                · rw [tokenizerFuel, if_neg hp, if_neg hw, if_neg hd, if_neg hqc, if_pos hl]
                  cases hlr : letterRunFuel n (c :: rest) [] with
                  | none => rfl
                  | some vr =>
                    obtain ⟨v, rem⟩ := vr
                    have hex : ∃ x ∈ c :: rest, isLetterChar x = false :=
                      ⟨'"', hq, by decide⟩
                    have hdet := letterRunFuel_det hex hlr
                    have hrem : rem = (c :: rest).dropWhile isLetterChar :=
                      congrArg Prod.snd hdet
                    have hremlen : rem.length ≤ k := by
                      rw [hrem, List.dropWhile_cons_of_pos hl]
                      exact Nat.le_trans ((List.dropWhile_suffix _).sublist.length_le) hlenr
                    have hqrem : '"' ∈ rem := by
                      rw [hrem]
                      exact mem_dropWhile_of_mem hq (by decide)
                    have hrrem : ∀ x ∈ rem, recognizedChar x = true := by
                      intro x hx
                      rw [hrem] at hx
                      exact hr x (mem_of_mem_dropWhile hx)
                    exact ih rem hremlen hqrem hrrem n _
                · exfalso
                  have := hr c (List.mem_cons_self c rest)
                  simp only [recognizedChar, Bool.or_eq_true, decide_eq_true_eq] at this
                  rcases this with ((((h1 | h1) | h1) | h1) | h1) | h1
                  · exact hp (Or.inl h1)
                  · exact hp (Or.inr h1)
                  · exact hw h1
                  · exact hd h1
                  · exact hqc h1
                  · exact hl h1

/-- On an input containing a double quote, with every character drawn from
the recognized classes, the tokenizer never returns, whatever the fuel. -/
theorem tokenizerFuel_quote_none {cs : List Char} (hq : '"' ∈ cs)
    (hr : ∀ c ∈ cs, recognizedChar c = true) (n : Nat) (acc : List Token) :
    tokenizerFuel n cs acc = none :=
  tokenizerFuel_quote_none_aux cs.length cs (Nat.le_refl _) hq hr n acc

/-! ## Termination of the tokenizer on quote-free inputs not ending in a letter -/

theorem tokenizerFuel_total_aux :
    ∀ (k : Nat) (cs : List Char), cs.length ≤ k → '"' ∉ cs →
      (∀ x, cs.getLast? = some x → isLetterChar x = false) →
      ∀ acc, ∃ n r, tokenizerFuel n cs acc = some r := by
  intro k
  induction k with
  | zero =>
    intro cs hlen _ _ acc
    rw [List.length_eq_zero.mp (Nat.le_zero.mp hlen)]
    exact ⟨1, .ok acc, rfl⟩
  | succ k ih =>
    intro cs hlen hq hlast acc
    cases cs with
    | nil => exact ⟨1, .ok acc, rfl⟩
    | cons c rest =>
      have hlenr : rest.length ≤ k := Nat.le_of_succ_le_succ hlen
      have hqr : '"' ∉ rest := fun hm => hq (List.mem_cons_of_mem _ hm)
      have hlastr : ∀ x, rest.getLast? = some x → isLetterChar x = false := by
        intro x hx
        exact hlast x (List.mem_getLast?_cons hx)
      by_cases hp : c = '(' ∨ c = ')'
      · obtain ⟨n, r, hnr⟩ := ih rest hlenr hqr hlastr (acc ++ [⟨.paren, String.mk [c]⟩])
        exact ⟨n + 1, r, by rw [tokenizerFuel, if_pos hp]; exact hnr⟩
      · by_cases hw : isWhitespaceChar c = true
        · obtain ⟨n, r, hnr⟩ := ih rest hlenr hqr hlastr acc
          exact ⟨n + 1, r, by rw [tokenizerFuel, if_neg hp, if_pos hw]; exact hnr⟩
        · by_cases hd : isDigitChar c = true
          · have hrem : ((c :: rest).dropWhile isDigitChar) = rest.dropWhile isDigitChar :=
              List.dropWhile_cons_of_pos hd
            have hremlen : ((c :: rest).dropWhile isDigitChar).length ≤ k := by
              rw [hrem]
              exact Nat.le_trans ((List.dropWhile_suffix _).sublist.length_le) hlenr
            have hqrem : '"' ∉ (c :: rest).dropWhile isDigitChar :=
              fun hm => hq (mem_of_mem_dropWhile hm)
            have hlastrem : ∀ x, ((c :: rest).dropWhile isDigitChar).getLast? = some x →
                isLetterChar x = false :=
              fun x hx => hlast x (getLast?_of_dropWhile_getLast? hx)
            obtain ⟨n, r, hnr⟩ := ih _ hremlen hqrem hlastrem
              (acc ++ [⟨.number, String.mk ((c :: rest).takeWhile isDigitChar)⟩])
            refine ⟨((c :: rest).length + 1) + n + 1, r, ?_⟩
            rw [tokenizerFuel, if_neg hp, if_neg hw, if_pos hd,
              digitRunFuel_mono_le (Nat.le_add_right _ _) (digitRunFuel_closed (c :: rest) [])]
            simp only [List.nil_append]
            exact tokenizerFuel_mono_le (Nat.le_add_left _ _) hnr
          · by_cases hqc : c = '"'
            · exact absurd (hqc ▸ List.mem_cons_self c rest) hq
            · by_cases hl : isLetterChar c = true
              · by_cases hall : ∀ x ∈ c :: rest, isLetterChar x = true
                · exfalso
                  have hne : c :: rest ≠ [] := List.cons_ne_nil c rest
                  have hsome := List.getLast?_eq_getLast_of_ne_nil hne
                  have hmem := List.getLast_mem hne
                  have := hlast _ hsome
                  rw [hall _ hmem] at this
                  cases this
                · have hex : ∃ x ∈ c :: rest, isLetterChar x = false := by
                    push_neg at hall
                    obtain ⟨x, hx, hxl⟩ := hall
                    exact ⟨x, hx, Bool.not_eq_true _ ▸ hxl⟩
                  have hrem : ((c :: rest).dropWhile isLetterChar) = rest.dropWhile isLetterChar :=
                    List.dropWhile_cons_of_pos hl
                  have hremlen : ((c :: rest).dropWhile isLetterChar).length ≤ k := by
                    rw [hrem]
                    exact Nat.le_trans ((List.dropWhile_suffix _).sublist.length_le) hlenr
                  have hqrem : '"' ∉ (c :: rest).dropWhile isLetterChar :=
                    fun hm => hq (mem_of_mem_dropWhile hm)
                  have hlastrem : ∀ x, ((c :: rest).dropWhile isLetterChar).getLast? = some x →
                      isLetterChar x = false :=
                    fun x hx => hlast x (getLast?_of_dropWhile_getLast? hx)
                  obtain ⟨n, r, hnr⟩ := ih _ hremlen hqrem hlastrem
                    (acc ++ [⟨.name, String.mk ((c :: rest).takeWhile isLetterChar)⟩])
                  refine ⟨((c :: rest).length + 1) + n + 1, r, ?_⟩
                  rw [tokenizerFuel, if_neg hp, if_neg hw, if_neg hd, if_neg hqc, if_pos hl,
                    letterRunFuel_mono_le (Nat.le_add_right _ _)
                      (letterRunFuel_closed (c :: rest) hex [])]
                  simp only [List.nil_append]
                  exact tokenizerFuel_mono_le (Nat.le_add_left _ _) hnr
              · refine ⟨1, .error c, ?_⟩
                rw [tokenizerFuel, if_neg hp, if_neg hw, if_neg hd, if_neg hqc, if_neg hl]

/-- The tokenizer terminates (with a token list or the explicit throw) on
every input that contains no double quote and does not end with a letter. -/
theorem tokenizerFuel_total {cs : List Char} (hq : '"' ∉ cs)
    (hlast : ∀ x, cs.getLast? = some x → isLetterChar x = false) (acc : List Token) :
    ∃ n r, tokenizerFuel n cs acc = some r :=
  tokenizerFuel_total_aux cs.length cs (Nat.le_refl _) hq hlast acc

/-! ## Fuel monotonicity of the parser -/

mutual

theorem walkFuel_mono : ∀ (n : Nat) (toks : List Token) (cur : Nat) (r : Except ParseFailure (SrcExpr × Nat)),
    walkFuel n toks cur = some r → walkFuel (n + 1) toks cur = some r
  | 0, _, _, _, h => by cases h
  | n + 1, toks, cur, r, h => by
    rw [walkFuel] at h ⊢
    cases hg : toks.get? cur with
    | none => rw [hg] at h; exact h
    | some t =>
      simp only [hg] at h ⊢
      by_cases h1 : t.type = TokenType.number
      · rw [if_pos h1] at h ⊢; exact h
      · rw [if_neg h1] at h ⊢
        by_cases h2 : t.type = TokenType.string
        · rw [if_pos h2] at h ⊢; exact h
        · rw [if_neg h2] at h ⊢
          by_cases h3 : t.type = TokenType.paren ∧ t.value = "("
          · rw [if_pos h3] at h ⊢
            cases hg2 : toks.get? (cur + 1) with
            | none => simp only [hg2] at h ⊢; exact h
            | some nameTok =>
              simp only [hg2] at h ⊢
              cases ha : argsFuel n toks (cur + 2) with
              | none => simp only [ha] at h; cases h
              | some res =>
                simp only [ha] at h
                simp only [argsFuel_mono n toks (cur + 2) res ha]
                exact h
          · rw [if_neg h3] at h ⊢; exact h

theorem argsFuel_mono : ∀ (n : Nat) (toks : List Token) (cur : Nat) (r : Except ParseFailure (List SrcExpr × Nat)),
    argsFuel n toks cur = some r → argsFuel (n + 1) toks cur = some r
  | 0, _, _, _, h => by cases h
  | n + 1, toks, cur, r, h => by
    rw [argsFuel] at h ⊢
    cases hg : toks.get? cur with
    | none => rw [hg] at h; exact h
    | some t =>
      simp only [hg] at h ⊢
      by_cases hcl : t.type = TokenType.paren ∧ t.value = ")"
      · rw [if_pos hcl] at h ⊢; exact h
      · rw [if_neg hcl] at h ⊢
        cases hw : walkFuel n toks cur with
        | none => simp only [hw] at h; cases h
        | some res =>
          simp only [hw, walkFuel_mono n toks cur res hw]
          cases res with
          | error e => simp only [hw] at h; exact h
          | ok ec =>
            obtain ⟨e, c2⟩ := ec
            simp only [hw] at h
            cases ha : argsFuel n toks c2 with
            | none => simp only [ha] at h; cases h
            | some res2 =>
              simp only [ha] at h
              simp only [argsFuel_mono n toks c2 res2 ha]
              exact h

end

theorem walkFuel_mono_le {n m : Nat} {toks cur r} (hnm : n ≤ m)
    (h : walkFuel n toks cur = some r) : walkFuel m toks cur = some r := by
  induction hnm with
  | refl => exact h
  | step _ ih => exact walkFuel_mono _ _ _ _ ih

theorem argsFuel_mono_le {n m : Nat} {toks cur r} (hnm : n ≤ m)
    (h : argsFuel n toks cur = some r) : argsFuel m toks cur = some r := by
  induction hnm with
  | refl => exact h
  | step _ ih => exact argsFuel_mono _ _ _ _ ih

theorem parseLoopFuel_mono : ∀ (n : Nat) (toks : List Token) (cur : Nat) (r : Except ParseFailure (List SrcExpr)),
    parseLoopFuel n toks cur = some r → parseLoopFuel (n + 1) toks cur = some r := by
  intro n
  induction n with
  | zero => intro toks cur r h; cases h
  | succ n ih =>
    intro toks cur r h
    rw [parseLoopFuel] at h ⊢
    by_cases hlt : cur < toks.length
    · rw [if_pos hlt] at h ⊢
      cases hw : walkFuel n toks cur with
      | none => simp only [hw] at h; cases h
      | some res =>
        simp only [hw, walkFuel_mono n toks cur res hw]
        cases res with
        | error e => simp only [hw] at h; exact h
        | ok ec =>
          obtain ⟨e, c2⟩ := ec
          simp only [hw] at h
          cases hp : parseLoopFuel n toks c2 with
          | none => simp only [hp] at h; cases h
          | some res2 =>
            simp only [hp] at h
            simp only [ih toks c2 res2 hp]
            exact h
    · rw [if_neg hlt] at h ⊢; exact h

theorem parseLoopFuel_mono_le {n m : Nat} {toks cur r} (hnm : n ≤ m)
    (h : parseLoopFuel n toks cur = some r) : parseLoopFuel m toks cur = some r := by
  induction hnm with
  | refl => exact h
  | step _ ih => exact parseLoopFuel_mono _ _ _ _ ih

theorem parserFuel_mono_le {n m : Nat} {toks r} (hnm : n ≤ m)
    (h : parserFuel n toks = some r) : parserFuel m toks = some r := by
  rw [parserFuel] at h ⊢
  cases hp : parseLoopFuel n toks 0 with
  | none => rw [hp] at h; cases h
  | some res =>
    rw [hp] at h
    rw [parseLoopFuel_mono_le hnm hp]
    exact h

/-! ## Progress: any successful parse step moves the cursor strictly forward -/

mutual

theorem walkFuel_progress : ∀ (n : Nat) (toks : List Token) (cur : Nat) (e : SrcExpr) (c2 : Nat),
    walkFuel n toks cur = some (.ok (e, c2)) → cur < c2
  | 0, _, _, _, _, h => by cases h
  | n + 1, toks, cur, e, c2, h => by
    rw [walkFuel] at h
    cases hg : toks.get? cur with
    | none => rw [hg] at h; simp at h
    | some t =>
      simp only [hg] at h
      by_cases h1 : t.type = TokenType.number
      · rw [if_pos h1] at h
        simp only [Option.some.injEq, Except.ok.injEq, Prod.mk.injEq] at h
        omega
      · rw [if_neg h1] at h
        by_cases h2 : t.type = TokenType.string
        · rw [if_pos h2] at h
          simp only [Option.some.injEq, Except.ok.injEq, Prod.mk.injEq] at h
          omega
        · rw [if_neg h2] at h
          by_cases h3 : t.type = TokenType.paren ∧ t.value = "("
          · rw [if_pos h3] at h
            cases hg2 : toks.get? (cur + 1) with
            | none => simp only [hg2] at h; simp at h
            | some nameTok =>
              simp only [hg2] at h
              cases ha : argsFuel n toks (cur + 2) with
              | none => simp only [ha] at h; cases h
              | some res =>
                simp only [ha] at h
                cases res with
                | error e2 => simp at h
                | ok pc =>
                  obtain ⟨params, c3⟩ := pc
                  simp only [Option.some.injEq, Except.ok.injEq, Prod.mk.injEq] at h
                  have := argsFuel_progress n toks (cur + 2) params c3 ha
                  omega
          · rw [if_neg h3] at h; simp at h

theorem argsFuel_progress : ∀ (n : Nat) (toks : List Token) (cur : Nat) (es : List SrcExpr) (c2 : Nat),
    argsFuel n toks cur = some (.ok (es, c2)) → cur < c2
  | 0, _, _, _, _, h => by cases h
  | n + 1, toks, cur, es, c2, h => by
    rw [argsFuel] at h
    cases hg : toks.get? cur with
    | none => rw [hg] at h; simp at h
    | some t =>
      simp only [hg] at h
      by_cases hcl : t.type = TokenType.paren ∧ t.value = ")"
      · rw [if_pos hcl] at h
        simp only [Option.some.injEq, Except.ok.injEq, Prod.mk.injEq] at h
        omega
      · rw [if_neg hcl] at h
        cases hw : walkFuel n toks cur with
        | none => simp only [hw] at h; cases h
        | some res =>
          simp only [hw] at h
          cases res with
          | error e1 => simp at h
          | ok ec =>
            obtain ⟨e1, c21⟩ := ec
            have hp1 := walkFuel_progress n toks cur e1 c21 hw
            cases ha : argsFuel n toks c21 with
            | none => simp only [ha] at h; cases h
            | some res2 =>
              simp only [ha] at h
              cases res2 with
              | error e2 => simp at h
              | ok esc =>
                obtain ⟨es2, c3⟩ := esc
                have hp2 := argsFuel_progress n toks c21 es2 c3 ha
                simp only [Option.some.injEq, Except.ok.injEq, Prod.mk.injEq] at h
                omega

end

/-! ## Totality: for every token array the parser terminates within some fuel -/

theorem walkArgsFuel_total_aux :
    ∀ (k : Nat) (toks : List Token) (cur : Nat), toks.length - cur ≤ k →
      (∃ n r, walkFuel n toks cur = some r) ∧ (∃ n r, argsFuel n toks cur = some r) := by
  intro k
  induction k with
  | zero =>
    intro toks cur hk
    have hg : toks.get? cur = none := List.get?_eq_none.mpr (by omega)
    constructor
    · exact ⟨1, .error .oob, by rw [walkFuel, hg]⟩
    · exact ⟨1, .error .oob, by rw [argsFuel, hg]⟩
  | succ k ih =>
    intro toks cur hk
    cases hg : toks.get? cur with
    | none =>
      constructor
      · exact ⟨1, .error .oob, by rw [walkFuel, hg]⟩
      · exact ⟨1, .error .oob, by rw [argsFuel, hg]⟩
    | some t =>
      obtain ⟨hcur, -⟩ := List.get?_eq_some.mp hg
      have Hwalk : ∃ n r, walkFuel n toks cur = some r := by
        by_cases h1 : t.type = TokenType.number
        · exact ⟨1, .ok (.num t.value, cur + 1), by
            rw [walkFuel]; simp only [hg]; rw [if_pos h1]⟩
        · by_cases h2 : t.type = TokenType.string
          · exact ⟨1, .ok (.str t.value, cur + 1), by
              rw [walkFuel]; simp only [hg]; rw [if_neg h1, if_pos h2]⟩
          · by_cases h3 : t.type = TokenType.paren ∧ t.value = "("
            · cases hg2 : toks.get? (cur + 1) with
              | none =>
                exact ⟨1, .error .oob, by
                  rw [walkFuel]; simp only [hg]; rw [if_neg h1, if_neg h2, if_pos h3]
                  simp only [hg2]⟩
              | some nameTok =>
                obtain ⟨n, r, ha⟩ := (ih toks (cur + 2) (by omega)).2
                cases r with
                | error e =>
                  exact ⟨n + 1, .error e, by
                    rw [walkFuel]; simp only [hg]; rw [if_neg h1, if_neg h2, if_pos h3]
                    simp only [hg2, ha]⟩
                | ok pc =>
                  obtain ⟨params, c3⟩ := pc
                  exact ⟨n + 1, .ok (.call nameTok.value params, c3), by
                    rw [walkFuel]; simp only [hg]; rw [if_neg h1, if_neg h2, if_pos h3]
                    simp only [hg2, ha]⟩
            · exact ⟨1, .error (.unexpected t), by
                rw [walkFuel]; simp only [hg]; rw [if_neg h1, if_neg h2, if_neg h3]⟩
      refine ⟨Hwalk, ?_⟩
      by_cases hcl : t.type = TokenType.paren ∧ t.value = ")"
      · exact ⟨1, .ok ([], cur + 1), by
          rw [argsFuel]; simp only [hg]; rw [if_pos hcl]⟩
      · obtain ⟨n1, r1, hw⟩ := Hwalk
        cases r1 with
        | error e =>
          exact ⟨n1 + 1, .error e, by
            rw [argsFuel]; simp only [hg]; rw [if_neg hcl]; simp only [hw]⟩
        | ok ec =>
          obtain ⟨e1, c21⟩ := ec
          have hp1 := walkFuel_progress n1 toks cur e1 c21 hw
          obtain ⟨n2, r2, ha2⟩ := (ih toks c21 (by omega)).2
          have hw' : walkFuel (n1 + n2) toks cur = some (.ok (e1, c21)) :=
            walkFuel_mono_le (Nat.le_add_right _ _) hw
          have ha2' : argsFuel (n1 + n2) toks c21 = some r2 :=
            argsFuel_mono_le (Nat.le_add_left _ _) ha2
          cases r2 with
          | error e2 =>
            exact ⟨n1 + n2 + 1, .error e2, by
              rw [argsFuel]; simp only [hg]; rw [if_neg hcl]; simp only [hw', ha2']⟩
          | ok esc =>
            obtain ⟨es2, c3⟩ := esc
            exact ⟨n1 + n2 + 1, .ok (e1 :: es2, c3), by
              rw [argsFuel]; simp only [hg]; rw [if_neg hcl]; simp only [hw', ha2']⟩

theorem parseLoopFuel_total_aux :
    ∀ (k : Nat) (toks : List Token) (cur : Nat), toks.length - cur ≤ k →
      ∃ n r, parseLoopFuel n toks cur = some r := by
  intro k
  induction k with
  | zero =>
    intro toks cur hk
    refine ⟨1, .ok [], ?_⟩
    rw [parseLoopFuel, if_neg (by omega)]
  | succ k ih =>
    intro toks cur hk
    by_cases hlt : cur < toks.length
    · obtain ⟨n1, r1, hw⟩ := (walkArgsFuel_total_aux (toks.length - cur) toks cur (Nat.le_refl _)).1
      cases r1 with
      | error e =>
        exact ⟨n1 + 1, .error e, by
          rw [parseLoopFuel, if_pos hlt]; simp only [hw]⟩
      | ok ec =>
        obtain ⟨e1, c21⟩ := ec
        have hp1 := walkFuel_progress n1 toks cur e1 c21 hw
        obtain ⟨n2, r2, hl2⟩ := ih toks c21 (by omega)
        have hw' : walkFuel (n1 + n2) toks cur = some (.ok (e1, c21)) :=
          walkFuel_mono_le (Nat.le_add_right _ _) hw
        have hl2' : parseLoopFuel (n1 + n2) toks c21 = some r2 :=
          parseLoopFuel_mono_le (Nat.le_add_left _ _) hl2
        cases r2 with
        | error e2 =>
          exact ⟨n1 + n2 + 1, .error e2, by
            rw [parseLoopFuel, if_pos hlt]; simp only [hw', hl2']⟩
        | ok es2 =>
          exact ⟨n1 + n2 + 1, .ok (e1 :: es2), by
            rw [parseLoopFuel, if_pos hlt]; simp only [hw', hl2']⟩
    · refine ⟨1, .ok [], ?_⟩
      rw [parseLoopFuel, if_neg hlt]

/-- The parser terminates on every finite token array: some fuel suffices
to produce either a Program or one of the two failure modes. -/
theorem parserFuel_total (toks : List Token) : ∃ n r, parserFuel n toks = some r := by
  obtain ⟨n, r, h⟩ := parseLoopFuel_total_aux toks.length toks 0 (by omega)
  cases r with
  | error e => exact ⟨n, .error e, by rw [parserFuel]; simp only [h]⟩
  | ok es => exact ⟨n, .ok ⟨es⟩, by rw [parserFuel]; simp only [h]⟩

/-! ## Transformer facts -/

theorem transformParams_eq_map : ∀ (l : List SrcExpr),
    transformParams l = l.map (transformExpr true) := by
  intro l
  induction l with
  | nil => rfl
  | cons x xs ih => rw [transformParams, List.map_cons, ih]

mutual

theorem stmtFree_transformExpr : ∀ (e : SrcExpr), stmtFree (transformExpr true e) = true
  | .num _ => rfl
  | .str _ => rfl
  | .call name params => by
    show stmtFree (.callExpression name (transformParams params)) = true
    rw [stmtFree]
    exact stmtFreeList_transformParams params
termination_by structural e => e

theorem stmtFreeList_transformParams : ∀ (l : List SrcExpr),
    stmtFreeList (transformParams l) = true
  | [] => rfl
  | x :: xs => by
    rw [transformParams, stmtFreeList, Bool.and_eq_true]
    exact ⟨stmtFree_transformExpr x, stmtFreeList_transformParams xs⟩
termination_by structural l => l

end

theorem topRel_transformExpr (e : SrcExpr) : topRel e (transformExpr false e) := by
  cases e with
  | num v => rfl
  | str v => rfl
  | call name params =>
    exact ⟨transformParams params, rfl, stmtFreeList_transformParams params⟩

mutual

theorem visitNode_spec : ∀ (b : Bool) (f : Nat) (n : CtxNode),
    stripNode (visitNode b f n).2.1 = stripNode n ∧
    (visitNode b f n).1 = transformExpr b (stripNode n)
  | _, _, .num _ _ => ⟨rfl, rfl⟩
  | _, _, .str _ _ => ⟨rfl, rfl⟩
  | b, f, .call name params c => by
    have h := visitList_spec true (f + 1) params
    constructor
    · show SrcExpr.call name (stripList (visitList true (f + 1) params).2.1) =
        SrcExpr.call name (stripList params)
      rw [h.1]
    · show (if b then JsNode.callExpression name (visitList true (f + 1) params).1
          else .expressionStatement (.callExpression name (visitList true (f + 1) params).1)) =
        transformExpr b (.call name (stripList params))
      rw [transformExpr, h.2, transformParams_eq_map]
termination_by structural _ _ n => n

theorem visitList_spec : ∀ (b : Bool) (f : Nat) (l : List CtxNode),
    stripList (visitList b f l).2.1 = stripList l ∧
    (visitList b f l).1 = (stripList l).map (transformExpr b)
  | _, _, [] => ⟨rfl, rfl⟩
  | b, f, x :: xs => by
    have hx := visitNode_spec b f x
    have hxs := visitList_spec b ((visitNode b f x).2.2) xs
    constructor
    · show stripNode (visitNode b f x).2.1 ::
        stripList (visitList b (visitNode b f x).2.2 xs).2.1 = stripList (x :: xs)
      rw [hx.1, hxs.1, stripList]
    · show (visitNode b f x).1 :: (visitList b (visitNode b f x).2.2 xs).1 =
        (stripList (x :: xs)).map (transformExpr b)
      rw [hx.2, hxs.2, stripList, List.map_cons]
termination_by structural _ _ l => l

end

/-! ## The code generator agrees with the specification's rendering rules -/

theorem intercalate_go_eq (s : String) : ∀ (xs : List String) (a : String),
    String.intercalate.go a s xs = joinWith s (a :: xs) := by
  intro xs
  induction xs with
  | nil => intro a; rfl
  | cons y ys ih =>
    intro a
    rw [String.intercalate.go, ih (a ++ s ++ y)]
    cases ys with
    | nil => simp [joinWith]
    | cons z zs => simp [joinWith, String.append_assoc]

theorem joinWith_eq_intercalate (sep : String) : ∀ (l : List String),
    joinWith sep l = String.intercalate sep l
  | [] => rfl
  | x :: xs => by rw [String.intercalate, intercalate_go_eq sep xs x]

mutual

theorem specRender_eq_aux : ∀ (n : JsNode), specRender n = generateJsCode n
  | .numberLiteral _ => rfl
  | .stringLiteral _ => rfl
  | .identifier _ => rfl
  | .callExpression callee args => by
    rw [specRender, generateJsCode, specRenderList_eq_aux args, joinWith_eq_intercalate]
  | .expressionStatement e => by
    rw [specRender, generateJsCode, specRender_eq_aux e]
  | .program body => by
    rw [specRender, generateJsCode, specRenderList_eq_aux body, joinWith_eq_intercalate]
termination_by structural n => n

theorem specRenderList_eq_aux : ∀ (l : List JsNode), specRenderList l = generateJsCodeList l
  | [] => rfl
  | x :: xs => by
    rw [specRenderList, generateJsCodeList, specRender_eq_aux x, specRenderList_eq_aux xs]
termination_by structural l => l

end

/-! ## Pipeline monotonicity -/

theorem compilerFuel_mono_le {n m : Nat} {s : String} {r} (hnm : n ≤ m)
    (h : compilerFuel n s = some r) : compilerFuel m s = some r := by
  rw [compilerFuel] at h ⊢
  cases ht : tokenizerFuel n s.data [] with
  | none => rw [ht] at h; cases h
  | some tr =>
    rw [ht] at h
    simp only [tokenizerFuel_mono_le hnm ht]
    cases tr with
    | error c => exact h
    | ok toks =>
      simp only [] at h ⊢
      cases hp : parserFuel n toks with
      | none => simp only [hp] at h; cases h
      | some pr =>
        simp only [hp] at h
        simp only [parserFuel_mono_le hnm hp]
        exact h

/-! ## The claims -/

/-- C1. On the input text "(add 2 (subtract 4 2))" the tokenizer returns
exactly the 9-token sequence of the claim, the parser turns those tokens
into Program[CallExpression("add", [NumberLiteral("2"),
CallExpression("subtract", [NumberLiteral("4"), NumberLiteral("2")])])],
the transformer produces the JsExpressionStatement-wrapped call tree, and
the whole compiler produces exactly "add(2, subtract(4, 2));". -/
theorem example_add_subtract_pipeline :
    tokenizerFuel 64 "(add 2 (subtract 4 2))".data [] =
      some (.ok [⟨.paren, "("⟩, ⟨.name, "add"⟩, ⟨.number, "2"⟩, ⟨.paren, "("⟩,
        ⟨.name, "subtract"⟩, ⟨.number, "4"⟩, ⟨.number, "2"⟩, ⟨.paren, ")"⟩,
        ⟨.paren, ")"⟩]) ∧
    parserFuel 64 [⟨.paren, "("⟩, ⟨.name, "add"⟩, ⟨.number, "2"⟩, ⟨.paren, "("⟩,
        ⟨.name, "subtract"⟩, ⟨.number, "4"⟩, ⟨.number, "2"⟩, ⟨.paren, ")"⟩,
        ⟨.paren, ")"⟩] =
      some (.ok ⟨[.call "add" [.num "2", .call "subtract" [.num "4", .num "2"]]]⟩) ∧
    transformer ⟨[.call "add" [.num "2", .call "subtract" [.num "4", .num "2"]]]⟩ =
      .program [.expressionStatement (.callExpression "add" [.numberLiteral "2",
        .callExpression "subtract" [.numberLiteral "4", .numberLiteral "2"]])] ∧
    compilerFuel 64 "(add 2 (subtract 4 2))" = some (.ok "add(2, subtract(4, 2));") :=
  ⟨rfl, rfl, rfl, rfl⟩

/-- C2. The claim says every well-formed input over numbers AND quoted
strings compiles; in fact any input containing a double quote makes the
tokenizer loop forever, because the closing quote is never consumed
(contradicting the source comment "Skip the closing double quote") and the
re-entered string scan runs off the end of the input. On the
specification's own scenario "(add \"x\" 1)" (expected output
"add(\"x\", 1);"), the compiler never returns, whatever the fuel. -/
theorem compiler_string_literal_diverges (n : Nat) :
    compilerFuel n "(add \"x\" 1)" = none := by
  rw [compilerFuel, tokenizerFuel_quote_none (by decide) (by decide) n []]

/-- C3 counterexample. The input "7" is accepted by the pipeline and its
single top-level expression (a literal) is emitted as "7", with no ";"
terminator: a top-level literal does not become a statement, contrary to
the claim's "every top-level expression ... whether a call or a literal". -/
theorem toplevel_literal_not_statement_cex :
    compilerFuel 9 "7" = some (.ok "7") ∧ ("7" : String).data.getLast? ≠ some ';' :=
  ⟨rfl, by decide⟩

/-- C3 amended. Every top-level CALL of the source program becomes exactly
one JsExpressionStatement (rendered as the inner rendering plus ";") in the
transformed body, in order; top-level literals are copied as bare leaves
without the statement wrapper; and no JsExpressionStatement occurs anywhere
inside a call's arguments, so nested calls never gain a ";". -/
theorem toplevel_call_statement_wrapping (p : SrcProgram) :
    ∃ l, transformer p = JsNode.program l ∧ List.Forall₂ topRel p.body l ∧
      ∀ e, generateJsCode (JsNode.expressionStatement e) = generateJsCode e ++ ";" := by
  refine ⟨p.body.map (transformExpr false), rfl, ?_, fun e => rfl⟩
  rw [List.forall₂_map_right_iff]
  exact List.forall₂_same.mpr (fun x _ => topRel_transformExpr x)

/-- C4 counterexample. On the input consisting of a double quote followed
by the letter a (a string literal that is never closed), the tokenizer does
not fail with a LexError: it produces no result at all, for every fuel
bound (the scanning loop never exits). -/
theorem unterminated_string_not_lexerror_cex :
    ¬ ∃ (n : Nat) (c : Char), tokenizerFuel n "\"a".data [] = some (.error c) := by
  rintro ⟨n, c, h⟩
  have hd : ("\"a".data) = '"' :: ['a'] := rfl
  rw [hd] at h
  cases n with
  | zero => cases h
  | succ n =>
    rw [tokenizerFuel, if_neg (show ¬('"' = '(' ∨ '"' = ')') by decide),
      if_neg (show ¬(isWhitespaceChar '"' = true) by decide),
      if_neg (show ¬(isDigitChar '"' = true) by decide),
      if_pos (show ('"' : Char) = '"' from rfl),
      stringScanFuel_none n ['a'] [] (by decide)] at h
    cases h

/-- C4 amended. When the tokenizer reaches an opening double quote whose
remaining input contains no closing quote, it diverges (no fuel bound
produces a result) instead of raising a LexError: past the end of the
input the character is undefined, which never equals the quote, so the
string-scanning loop runs forever. -/
theorem unterminated_string_scan_diverges (cs : List Char) (acc : List Token) (n : Nat)
    (hq : '"' ∉ cs) : tokenizerFuel n ('"' :: cs) acc = none := by
  cases n with
  | zero => rfl
  | succ n =>
    rw [tokenizerFuel, if_neg (show ¬('"' = '(' ∨ '"' = ')') by decide),
      if_neg (show ¬(isWhitespaceChar '"' = true) by decide),
      if_neg (show ¬(isDigitChar '"' = true) by decide),
      if_pos (show ('"' : Char) = '"' from rfl),
      stringScanFuel_none n cs [] hq]

theorem unterminated_string_scan_diverges_witness :
    ('"' ∉ ['a']) ∧ tokenizerFuel 5 ('"' :: ['a']) [] = none :=
  ⟨by decide, unterminated_string_scan_diverges ['a'] [] 5 (by decide)⟩

/-- C5 counterexample. On the token sequence for "(2)" the token after the
opening parenthesis is a Number, yet the parser raises no error at all: it
returns Program[CallExpression("2", [])], using the number's text as the
call name. -/
theorem open_paren_number_parses_cex :
    parserFuel 9 [⟨.paren, "("⟩, ⟨.number, "2"⟩, ⟨.paren, ")"⟩] =
      some (.ok ⟨[.call "2" []]⟩) := rfl

/-- C5 amended. The parser never inspects the kind of the token following
an opening parenthesis: whenever walk succeeds from an opening parenthesis,
the CallExpression it builds takes its name from that next token's value,
whatever that token's type. -/
theorem walk_ignores_name_token_kind : ∀ (n : Nat) (toks : List Token) (cur : Nat)
    (t : Token) (e : SrcExpr) (c2 : Nat),
    toks.get? cur = some ⟨TokenType.paren, "("⟩ →
    toks.get? (cur + 1) = some t →
    walkFuel n toks cur = some (.ok (e, c2)) →
    ∃ params, e = .call t.value params := by
  intro n toks cur t e c2 hg hg2 h
  cases n with
  | zero => cases h
  | succ n =>
    rw [walkFuel] at h
    simp only [hg] at h
    rw [if_neg (show ¬(Token.mk TokenType.paren "(").type = TokenType.number by decide),
      if_neg (show ¬(Token.mk TokenType.paren "(").type = TokenType.string by decide),
      if_pos (⟨trivial, trivial⟩ : True ∧ True)] at h
    simp only [hg2] at h
    cases ha : argsFuel n toks (cur + 2) with
    | none => simp only [ha] at h; cases h
    | some res =>
      simp only [ha] at h
      cases res with
      | error e2 => simp at h
      | ok pc =>
        obtain ⟨params, c3⟩ := pc
        simp only [Option.some.injEq, Except.ok.injEq, Prod.mk.injEq] at h
        exact ⟨params, h.1.symm⟩

theorem walk_ignores_name_token_kind_witness :
    walkFuel 9 [⟨TokenType.paren, "("⟩, ⟨TokenType.number, "2"⟩, ⟨TokenType.paren, ")"⟩] 0 =
      some (.ok (.call "2" [], 3)) ∧
    ∃ params, SrcExpr.call "2" [] = SrcExpr.call "2" params :=
  ⟨rfl, walk_ignores_name_token_kind 9
    [⟨TokenType.paren, "("⟩, ⟨TokenType.number, "2"⟩, ⟨TokenType.paren, ")"⟩] 0
    ⟨TokenType.number, "2"⟩ (.call "2" []) 3 rfl rfl rfl⟩

/-- C6 counterexample. On the single token "(" the parser does read past
the end of the token array: the failure is the out-of-range undefined
property access (oob), not a ParseError naming an unexpected token's kind. -/
theorem truncated_input_oob_cex :
    parserFuel 3 [⟨TokenType.paren, "("⟩] = some (.error .oob) := rfl

/-- C6 amended. On every finite token sequence the parser terminates, with
one of exactly three outcomes: a Program, the explicit throw naming the
unexpected token, or the out-of-range undefined property access after
reading past the end of the token array (as on the single token "("). -/
theorem parser_always_terminates (toks : List Token) :
    ∃ n r, parserFuel n toks = some r ∧
      ((∃ p, r = .ok p) ∨ (∃ t, r = .error (.unexpected t)) ∨ r = .error .oob) := by
  obtain ⟨n, r, h⟩ := parserFuel_total toks
  refine ⟨n, r, h, ?_⟩
  cases r with
  | ok p => exact Or.inl ⟨p, rfl⟩
  | error e =>
    cases e with
    | unexpected t => exact Or.inr (Or.inl ⟨t, rfl⟩)
    | oob => exact Or.inr (Or.inr rfl)

/-- C7 counterexample. On the input "add" (which ends in the middle of a
letter run) the tokenizer does not terminate: past the end of the input the
letter test receives the string "undefined", which contains letters, so the
name-scanning loop never exits and no fuel bound produces a result. -/
theorem trailing_letter_run_diverges_cex :
    ¬ ∃ (n : Nat) (r : Except Char (List Token)), tokenizerFuel n "add".data [] = some r := by
  rintro ⟨n, r, h⟩
  have hd : ("add".data) = 'a' :: ['d', 'd'] := rfl
  rw [hd] at h
  cases n with
  | zero => cases h
  | succ n =>
    rw [tokenizerFuel, if_neg (show ¬('a' = '(' ∨ 'a' = ')') by decide),
      if_neg (show ¬(isWhitespaceChar 'a' = true) by decide),
      if_neg (show ¬(isDigitChar 'a' = true) by decide),
      if_neg (show ¬('a' = '"') by decide),
      if_pos (show isLetterChar 'a' = true by decide),
      letterRunFuel_none n ('a' :: ['d', 'd']) [] (by decide)] at h
    cases h

/-- C7 amended. The tokenizer terminates on every input string that
contains no double quote and does not end with a letter; an input that ends
inside a letter run (or that makes the scan enter a string scan) makes the
scanning loop run forever instead. -/
theorem tokenizer_terminates_on_safe_inputs (s : String) (hq : '"' ∉ s.data)
    (hl : ∀ x, s.data.getLast? = some x → isLetterChar x = false) :
    ∃ n r, tokenizerFuel n s.data [] = some r :=
  tokenizerFuel_total hq hl []

theorem tokenizer_terminates_on_safe_inputs_witness :
    ('"' ∉ "(add 2)".data) ∧ ∃ n r, tokenizerFuel n "(add 2)".data [] = some r :=
  ⟨by decide, tokenizer_terminates_on_safe_inputs "(add 2)" (by decide)
    (fun x hx => by
      rw [show ("(add 2)".data.getLast? = some ')') from rfl] at hx
      cases hx
      rfl)⟩

/-- C8. The code generator follows exactly the specification's six
rendering rules, one per target node kind: specRender is the rule-by-rule
rendering written from the specification text, and it agrees with the
source's generateJsCode on every target node. -/
theorem generateJsCode_matches_spec_rules : ∀ (node : JsNode),
    generateJsCode node = specRender node :=
  fun node => (specRender_eq_aux node).symm

/-- C9 counterexample. After transformer returns, the source tree is NOT
restored to its input state: the transient output-slot association
(the field set on the Program node before traversal) is still attached, so
the claim's "discarded after the call returns" fails on the example
program. -/
theorem transformer_context_not_discarded_cex :
    (transformerS ⟨[CtxNode.call "add" [CtxNode.num "2" none,
        CtxNode.call "subtract" [CtxNode.num "4" none, CtxNode.num "2" none] none] none],
      none⟩).2 ≠
    ⟨[CtxNode.call "add" [CtxNode.num "2" none,
        CtxNode.call "subtract" [CtxNode.num "4" none, CtxNode.num "2" none] none] none],
      none⟩ :=
  fun h => Option.noConfusion (congrArg CtxProgram.ctx h)

/-- C9 amended. The transformer never changes the structure of the source
tree: stripping the output-slot fields, the tree it leaves behind equals
the input, and the new AST it returns is the pure transform of that
structure. The only write to source nodes is the output-slot association
(on the Program node and on each CallExpression node, set once each), and
it REMAINS attached after the call returns rather than being discarded. -/
theorem transformer_preserves_source_structure (p : CtxProgram) :
    stripProgram (transformerS p).2 = stripProgram p ∧
    (transformerS p).1 = transformer (stripProgram p) ∧
    (transformerS p).2.ctx = some 0 := by
  have h := visitList_spec false 1 p.body
  refine ⟨?_, ?_, rfl⟩
  · show SrcProgram.mk (stripList (visitList false 1 p.body).2.1) = ⟨stripList p.body⟩
    rw [h.1]
  · show JsNode.program (visitList false 1 p.body).1 = transformer ⟨stripList p.body⟩
    rw [h.2, transformer]

/-- C10. The compiler is a deterministic pure function of its input text:
any two runs (with any fuel bounds) that complete on the same input produce
the same result, output or error; no state is shared between calls, since
the model is a function of the input string alone. -/
theorem compiler_deterministic (s : String) (n1 n2 : Nat)
    (r1 r2 : Except CompileError String)
    (h1 : compilerFuel n1 s = some r1) (h2 : compilerFuel n2 s = some r2) : r1 = r2 := by
  have h1m : compilerFuel (n1 + n2) s = some r1 :=
    compilerFuel_mono_le (Nat.le_add_right _ _) h1
  have h2m : compilerFuel (n1 + n2) s = some r2 :=
    compilerFuel_mono_le (Nat.le_add_left _ _) h2
  exact Option.some_inj.mp (h1m.symm.trans h2m)

theorem compiler_deterministic_witness :
    (Except.ok "add(2, subtract(4, 2));" : Except CompileError String) =
      .ok "add(2, subtract(4, 2));" :=
  compiler_deterministic "(add 2 (subtract 4 2))" 64 70
    (.ok "add(2, subtract(4, 2));") (.ok "add(2, subtract(4, 2));") rfl rfl

end STC
